import Mathlib

/-!
Verification of the tagged-sequence merge engine of `src/expressions.h`
(together with the `DataFrame` container it operates on).

Shallow embedding conventions:
* a materialized dataframe (`DataFrame<Tag, Value>`) is a pair of lists;
* a cursor that is only consumed through `end()/tag()/value()/next()` is
  modelled by the list of rows it yields;
* the source cursor `Expr_DataFrame`, whose `advance_to_tag` performs a
  binary search over the whole tags array, is modelled by the dataframe
  itself together with a position index;
* reads that are out of bounds in the C++ (dereferencing a one-past-the-end
  or null reference) are modelled with `Option`, and a drain that performs
  such a read for an emitted value returns `none`.
-/

namespace DFSpec

/-- A materialized dataframe: reference-counted `tags` and `values` arrays
(`DataFrame` in the source).  Sharing is irrelevant to the functional
behaviour modelled here, so the two arrays are plain lists. -/
structure DataFrame (T : Type) (V : Type) where
  tags : List T
  values : List V
deriving Repr, DecidableEq

/-- `DataFrame::size`, which is the size of the tags array. -/
def DataFrame.size {T V : Type} (df : DataFrame T V) : Nat := df.tags.length

/-- The row sequence of a dataframe (used to feed cursors that walk it with
`next()`; equals the indexed reads whenever the two arrays have equal
length). -/
def DataFrame.rows {T V : Type} (df : DataFrame T V) : List (T × V) :=
  df.tags.zip df.values

/-- `Expr_Operations::materialize`: the drain loop pushes the current tag
onto the fresh tags array and the current value onto the fresh values array,
one pair per iteration. -/
def materializeRows {T V : Type} (rows : List (T × V)) : DataFrame T V :=
  ⟨rows.map Prod.fst, rows.map Prod.snd⟩

/-- `std::lower_bound` over the tags array: index of the first element `x`
with `¬ x < t` (i.e. `t ≤ x`), or the array length when there is none. -/
def lowerBound {T : Type} [LinearOrder T] (tags : List T) (t : T) : Nat :=
  tags.findIdx (fun x => decide (t ≤ x))

/-- `Expr_DataFrame::advance_to_tag`: binary-search the whole tags array for
`t`; if the element found compares equal to `t`, move there, otherwise set
the position to `size` (end).  The C++ compares `*l == t` even when `l` is
the end iterator; in that case the branch taken is the end branch, which is
how the out-of-range comparison is modelled. -/
def advanceToTag {T V : Type} [LinearOrder T] (df : DataFrame T V) (t : T) : Nat :=
  let j := lowerBound df.tags t
  if hj : j < df.tags.length then
    if df.tags.get ⟨j, hj⟩ = t then j else df.size
  else df.size

/-- The member function ignores the current position `i`; `stepAdvance`
records that explicitly (the new position depends on the dataframe and the
requested tag only). -/
def stepAdvance {T V : Type} [LinearOrder T] (df : DataFrame T V) (_i : Nat) (t : T) : Nat :=
  advanceToTag df t

/-- `advance_to_tag_by_linear_search`: `while (!df.end() && (df.tag != t)) df.next();`
acting on the list of remaining rows of the cursor. -/
def advanceLinear {T V : Type} [DecidableEq T] (t : T) : List (T × V) → List (T × V)
  | [] => []
  | (t0, v0) :: rest => if t0 = t then (t0, v0) :: rest else advanceLinear t rest

/-- One iteration bound for the source-cursor drain: while `i < size`, read
`tags[i]` and `values[i]` and push both, then `i := i + 1`.  `fuel` counts
the remaining iterations (the drain starts it at `size`, which the loop
never exceeds); out-of-range reads surface as `none`. -/
def srcDrainAux {T V : Type} (df : DataFrame T V) : Nat → Nat → List (Option T × Option V)
  | 0, _ => []
  | fuel + 1, i =>
    if i < df.tags.length then (df.tags[i]?, df.values[i]?) :: srcDrainAux df fuel (i + 1)
    else []

/-- Materialize loop of a source cursor `Expr_DataFrame` starting at row 0. -/
def srcDrain {T V : Type} (df : DataFrame T V) : List (Option T × Option V) :=
  srcDrainAux df df.tags.length 0

/-- Collapse the optional reads of a drain: `none` when any single read was
out of range (undefined behaviour in the source). -/
def optRows {T V : Type} : List (Option T × Option V) → Option (List (T × V))
  | [] => some []
  | (some t, some v) :: rest => (optRows rest).map (fun rs => (t, v) :: rs)
  | _ :: _ => none

/-- `materialize` applied to a source cursor over `df`. -/
def materializeSource {T V : Type} (df : DataFrame T V) : Option (DataFrame T V) :=
  (optRows (srcDrain df)).map materializeRows

/-- `Expr_Union`'s emission order.  At each state the source evaluates
`!df1.end() && ((df1.tag < df2.tag) || df2.end())` to pick the left row and
otherwise `!df2.end() && ((df2.tag <= df1.tag) || df1.end())` to pick the
right row; the drain below follows the truth value of those guards. -/
def unionRows {T V : Type} [LinearOrder T] : List (T × V) → List (T × V) → List (T × V)
  | [], [] => []
  | [], r :: rs => r :: unionRows [] rs
  | l :: ls, [] => l :: unionRows ls []
  | l :: ls, r :: rs =>
    if l.1 < r.1 then l :: unionRows ls (r :: rs)
    else r :: unionRows (l :: ls) rs
termination_by ls rs => ls.length + rs.length

/-- Whether evaluating the pick guards of `Expr_Union::update_tagvalue` (and
`Expr_Union::next`) at the given state reads the tag of a child whose
`end()` is true:  `(df1.tag < df2.tag)` is evaluated before `df2.end()`
whenever `df1` has rows left, and `(df2.tag <= df1.tag)` before `df1.end()`
whenever the first guard failed and `df2` has rows left. -/
def unionReadsEndedAt {T V : Type} : List (T × V) → List (T × V) → Bool
  | [], [] => false
  | [], _ :: _ => true
  | _ :: _, [] => true
  | _ :: _, _ :: _ => false

/-- Whether any state reached while draining the union (the constructor's
`update_tagvalue` included) evaluates a pick guard that reads an ended
child's tag. -/
def unionDrainReadsEnded {T V : Type} [LinearOrder T] :
    List (T × V) → List (T × V) → Bool
  | [], [] => false
  | [], _ :: rs => true || unionDrainReadsEnded ([] : List (T × V)) rs
  | _ :: ls, [] => true || unionDrainReadsEnded ls ([] : List (T × V))
  | l :: ls, r :: rs =>
    if l.1 < r.1 then unionDrainReadsEnded ls (r :: rs)
    else unionDrainReadsEnded (l :: ls) rs
termination_by ls rs => ls.length + rs.length

/-- `Expr_Reduction::next`: take the child's current row, start the
accumulator with `init` on it, then fold `acc` over the remaining rows of
the run of equal tags, and continue after the run. -/
def reduceRows {T V A : Type} [DecidableEq T] (init : T → V → A) (acc : T → V → A → A) :
    List (T × V) → List (T × A)
  | [] => []
  | (t, v) :: rest =>
    (t, (rest.takeWhile (fun p => p.1 = t)).foldl (fun a p => acc p.1 p.2 a) (init t v))
      :: reduceRows init acc (rest.dropWhile (fun p => p.1 = t))
termination_by rows => rows.length
decreasing_by
  simp only [List.length_cons]
  exact Nat.lt_succ_of_le (List.dropWhile_sublist _).length_le

/-- `Expr_Reduction` without an accumulating overload (the `apply` case):
the `if constexpr` branch is not taken, so every child row yields one output
row. -/
def applyRows {T V A : Type} (init : T → V → A) (rows : List (T × V)) : List (T × A) :=
  rows.map (fun p => (p.1, init p.1 p.2))

/- The materialize loop over an `Expr_Intersection` whose left side is a
source cursor (`Expr1 = Expr_DataFrame`, so its `advance_to_tag` is the
binary search), together with the scan loop of `update_tagvalue`.

`interDrain` is one materialize iteration at the entry of `update_tagvalue`:
`reg` holds the `tag`/`value` registers of the expression (`none` until the
first match, mirroring the default-constructed null references) and `rows`
the remaining right rows.  `update_tagvalue` first sets `_end = df2.end()`,
so with no right rows left the loop stops; otherwise `interDrainScan` walks
the right rows: for each, it advances the left frame to that row's tag; on a
match it computes the merged emission, stores it in the registers and
continues with the remaining right rows; if it exhausts the right rows,
`_end` is still false, so the loop emits the stale registers once — a null
reference read, hence `none`, when no match ever happened.  An emission is
also `none` when the left value read `df1.value` is out of range (undefined
behaviour in the source). -/
mutual

/-- Materialize iteration of the source-cursor-left intersection; see the
comment above. -/
def interDrain {T V1 V2 W : Type} [LinearOrder T] (df1 : DataFrame T V1)
    (merge : T → V1 → V2 → W) (reg : Option (T × W)) (rows : List (T × V2)) :
    Option (List (T × W)) :=
  match rows with
  | [] => some []
  | r :: rest => interDrainScan df1 merge reg (r :: rest)
termination_by (rows.length, 1)

/-- The `for (; !df2.end(); df2.next())` scan of
`Expr_Intersection::update_tagvalue` (left side a source cursor); see
`interDrain`. -/
def interDrainScan {T V1 V2 W : Type} [LinearOrder T] (df1 : DataFrame T V1)
    (merge : T → V1 → V2 → W) (reg : Option (T × W)) (rows : List (T × V2)) :
    Option (List (T × W)) :=
  match rows with
  | [] =>
    match reg with
    | some q => some [q]
    | none => none
  | (t, v) :: rest =>
    let j := advanceToTag df1 t
    if hj : j < df1.tags.length then
      match (df1.values[j]?).map (fun vl => (t, merge (df1.tags.get ⟨j, hj⟩) vl v)) with
      | some out => (interDrain df1 merge (some out) rest).map (out :: ·)
      | none => none
    else interDrainScan df1 merge reg rest
termination_by (rows.length, 0)

end

/-- `materialize` over `Expr_Intersection(Expr_DataFrame(df1), Expr_DataFrame(df2), merge)`. -/
def materializeInter {T V1 V2 W : Type} [LinearOrder T] (df1 : DataFrame T V1)
    (df2 : DataFrame T V2) (merge : T → V1 → V2 → W) : Option (DataFrame T W) :=
  (interDrain df1 merge none df2.rows).map materializeRows

/- The materialize loop over an `Expr_Intersection` whose left side is
itself a derived expression, so its `advance_to_tag` is
`advance_to_tag_by_linear_search` over the left cursor's remaining rows
(forward only, with the left position kept across scans).  The loop
structure is the one described at `interDrain`. -/
mutual

/-- Materialize iteration of the derived-cursor-left intersection; see the
comment above. -/
def interDrainLin {T V1 V2 W : Type} [DecidableEq T] (merge : T → V1 → V2 → W)
    (reg : Option (T × W)) (lrows : List (T × V1)) (rows : List (T × V2)) :
    Option (List (T × W)) :=
  match rows with
  | [] => some []
  | r :: rest => interDrainLinScan merge reg lrows (r :: rest)
termination_by (rows.length, 1)

/-- The scan loop of `update_tagvalue` with a derived left cursor; see
`interDrainLin`. -/
def interDrainLinScan {T V1 V2 W : Type} [DecidableEq T] (merge : T → V1 → V2 → W)
    (reg : Option (T × W)) (lrows : List (T × V1)) (rows : List (T × V2)) :
    Option (List (T × W)) :=
  match rows with
  | [] =>
    match reg with
    | some q => some [q]
    | none => none
  | (t, v) :: rest =>
    match advanceLinear t lrows with
    | [] => interDrainLinScan merge reg [] rest
    | (tl, vl) :: ltail =>
      (interDrainLin merge (some (t, merge tl vl v)) ((tl, vl) :: ltail) rest).map
        ((t, merge tl vl v) :: ·)
termination_by (rows.length, 0)

end

/-- One `indices_map[array[i]].push_back(i)` step of `argsort`: `std::map`
keeps its entries sorted by key, so the insertion walks the association
list, creates a fresh singleton bucket in key order when the key is new, and
appends the index at the back of the existing bucket otherwise. -/
def mapInsert {K : Type} [LinearOrder K] (k : K) (i : Nat) :
    List (K × List Nat) → List (K × List Nat)
  | [] => [(k, [i])]
  | (k0, is) :: rest =>
    if k < k0 then (k, [i]) :: (k0, is) :: rest
    else if k = k0 then (k0, is ++ [i]) :: rest
    else (k0, is) :: mapInsert k i rest

/-- Reading the `std::map` back in sorted order and concatenating the
per-key index buckets. -/
def mapFlatten {K : Type} (m : List (K × List Nat)) : List Nat :=
  (m.map Prod.snd).flatten

/-- `argsort`: bucket the indices `0, 1, ...` of `array` by element value in
an ordered map, then concatenate the buckets in ascending key order. -/
def argsort {K : Type} [LinearOrder K] (array : List K) : List Nat :=
  mapFlatten (array.enum.foldl (fun m p => mapInsert p.2 p.1 m) [])

/-- The row sequence produced by an `Expr_Retag`: position `i` of the
expression reads the tag-source's value and the value-source's value at
index `traversal_order[i]`.  Out-of-range reads never happen because
`argsort` permutes the valid indices; `filterMap` makes the reads total. -/
def retagRows {T V : Type} [LinearOrder T] (keys : List T) (vals : List V) :
    List (T × V) :=
  (argsort keys).filterMap (fun j =>
    match keys[j]?, vals[j]? with
    | some t, some v => some (t, v)
    | _, _ => none)

/-- `Expr_Retag::Expr_Retag`: first compare `df_tags.size()` with
`df_values.size()` and throw `std::invalid_argument` on mismatch; only then
compute the traversal order by argsorting the tag-source's values. -/
def mkRetag {T1 V1 T2 V2 : Type} [LinearOrder V1] (df_tags : DataFrame T1 V1)
    (df_values : DataFrame T2 V2) : Except String (List Nat) :=
  if df_tags.size ≠ df_values.size then
    Except.error "df_tags and df_values must have the same length"
  else
    Except.ok (argsort df_tags.values)

/-- `materialize` over an `Expr_Retag` built from two materialized frames
(the constructor throws on size mismatch, so no output exists then). -/
def materializeRetag {T1 V1 T2 V2 : Type} [LinearOrder V1] (df_tags : DataFrame T1 V1)
    (df_values : DataFrame T2 V2) : Option (DataFrame V1 V2) :=
  match mkRetag df_tags df_values with
  | Except.error _ => none
  | Except.ok _ => some (materializeRows (retagRows df_tags.values df_values.values))

/-- A lazy pipeline of the five stage kinds, with tags and values drawn from
one linearly ordered type so that every stage composes with every other
(`retag` makes the tag type of its output the value type of its tag
source). -/
inductive Pipe (α : Type) where
  | src (df : DataFrame α α)
  | reduce (init : α → α → α) (acc : α → α → α → α) (p : Pipe α)
  | inter (merge : α → α → α → α) (l : Pipe α) (r : Pipe α)
  | union (l : Pipe α) (r : Pipe α)
  | retag (ptags : Pipe α) (pvals : Pipe α)

/-- The row sequence a pipeline's cursor yields when drained, `none` when
the drain performs an undefined read (intersection with no match at all or
an out-of-range source read) or `Expr_Retag`'s constructor throws.  An
intersection whose left side is a source dataframe uses the binary-search
`advance_to_tag`; any other left side is a derived expression and uses the
linear search. -/
def Pipe.evalRows {α : Type} [LinearOrder α] : Pipe α → Option (List (α × α))
  | .src df => optRows (srcDrain df)
  | .reduce init acc p => (evalRows p).map (reduceRows init acc)
  | .inter merge l r =>
    match l with
    | .src df1 => (evalRows r).bind (fun rr => interDrain df1 merge none rr)
    | l =>
      (evalRows l).bind (fun lr =>
        (evalRows r).bind (fun rr => interDrainLin merge none lr rr))
  | .union l r =>
    (evalRows l).bind (fun lr => (evalRows r).map (fun rr => unionRows lr rr))
  | .retag pt pv =>
    (evalRows pt).bind (fun tr =>
      (evalRows pv).bind (fun vr =>
        let dft := materializeRows tr
        let dfv := materializeRows vr
        if dft.size = dfv.size then some (retagRows dft.values dfv.values)
        else none))

/-- Every source dataframe of the pipeline has non-decreasing tags. -/
def Pipe.sourcesSorted {α : Type} [LinearOrder α] : Pipe α → Prop
  | .src df => List.Chain' (· ≤ ·) df.tags
  | .reduce _ _ p => p.sourcesSorted
  | .inter _ l r => l.sourcesSorted ∧ r.sourcesSorted
  | .union l r => l.sourcesSorted ∧ r.sourcesSorted
  | .retag pt pv => pt.sourcesSorted ∧ pv.sourcesSorted

/-- Modelled from the claim's words for `advance_to_tag`: "move the cursor
forward (never backward) to the first remaining row whose tag is `>= t`, or
to `end()` if no such row exists", starting from the current position `i`.
The comparer and fallback make `i + findIdx` equal to `size` exactly when no
remaining row qualifies. -/
def specAdvanceToTag {T V : Type} [LinearOrder T] (df : DataFrame T V) (i : Nat) (t : T) :
    Nat :=
  i + (df.tags.drop i).findIdx (fun x => decide (t ≤ x))

/-- Modelled from the spec's intersection pseudocode: every right row whose
tag has a match in the left frame emits `(R.tag, combine(L.tag, L.value,
R.value))` with the matching left row, and a right row with no match
produces nothing. -/
def specIntersection {T V1 V2 W : Type} [DecidableEq T] (df1 : DataFrame T V1)
    (df2 : DataFrame T V2) (merge : T → V1 → V2 → W) : DataFrame T W :=
  materializeRows (df2.rows.filterMap (fun p =>
    (df1.rows.find? (fun q => q.1 = p.1)).map (fun q => (p.1, merge q.1 q.2 p.2))))

/-! Theorems.  First the source cursor and its materialization. -/

/-- The source drain from position `i` reads exactly the zipped suffixes of
the two arrays when they have equal length and the fuel covers the loop. -/
theorem srcDrainAux_eq {T V : Type} (df : DataFrame T V)
    (h : df.tags.length = df.values.length) :
    ∀ fuel i, df.tags.length ≤ i + fuel →
      srcDrainAux df fuel i
        = ((df.tags.drop i).zip (df.values.drop i)).map (fun p => (some p.1, some p.2))
  | 0, i, hle => by
    have ht : df.tags.drop i = [] := List.drop_eq_nil_of_le (by omega)
    simp [srcDrainAux, ht]
  | fuel + 1, i, hle => by
    rw [srcDrainAux]
    by_cases hi : i < df.tags.length
    · rw [if_pos hi]
      have hiv : i < df.values.length := by omega
      rw [List.drop_eq_getElem_cons hi, List.drop_eq_getElem_cons hiv]
      simp only [List.zip_cons_cons, List.map_cons]
      rw [srcDrainAux_eq df h fuel (i + 1) (by omega)]
      simp [List.getElem?_eq_getElem, hi, hiv]
    · rw [if_neg hi]
      have ht : df.tags.drop i = [] := List.drop_eq_nil_of_le (by omega)
      simp [ht]

/-- Collapsing a drain whose every read succeeded returns the plain rows. -/
theorem optRows_map_some {T V : Type} :
    ∀ rows : List (T × V), optRows (rows.map (fun p => (some p.1, some p.2))) = some rows
  | [] => rfl
  | (t, v) :: rest => by
    simp [List.map_cons, optRows, optRows_map_some rest]

/-- C8: materializing a Source cursor over a Tagged Sequence (its two arrays
have equal length) reproduces the original tags and values exactly.  The
loop builds the output by appending to a freshly default-constructed frame,
so the result is a new equal frame rather than the input handle. -/
theorem c8_source_materialize_roundtrip {T V : Type} (df : DataFrame T V)
    (h : df.tags.length = df.values.length) :
    materializeSource df = some df := by
  unfold materializeSource srcDrain
  rw [srcDrainAux_eq df h df.tags.length 0 (by omega)]
  simp only [List.drop_zero]
  rw [optRows_map_some]
  cases df with
  | mk tags values =>
    simp only [Option.map_some]
    simp only at h
    simp [materializeRows, List.map_fst_zip tags values (le_of_eq h),
      List.map_snd_zip tags values (le_of_eq h.symm)]

/-- Witness for C8 at a concrete frame. -/
theorem c8_source_materialize_roundtrip_witness :
    (⟨[1, 2], [10, 20]⟩ : DataFrame Int Int).tags.length
        = (⟨[1, 2], [10, 20]⟩ : DataFrame Int Int).values.length
    ∧ materializeSource (⟨[1, 2], [10, 20]⟩ : DataFrame Int Int) = some ⟨[1, 2], [10, 20]⟩ :=
  ⟨by decide, c8_source_materialize_roundtrip _ (by decide)⟩

/-! The `advance_to_tag` family (claims C4 and C10). -/

/-- On a sorted tags array that contains `t`, the `lower_bound` search and
the search for the first exact occurrence of `t` find the same index. -/
theorem lowerBound_eq_exact {T : Type} [LinearOrder T] :
    ∀ l : List T, List.Pairwise (· ≤ ·) l → ∀ t : T, t ∈ l →
      l.findIdx (fun x => decide (t ≤ x)) = l.findIdx (fun x => decide (x = t))
  | [], _, t, hm => by simp at hm
  | x :: xs, hp, t, hm => by
    rw [List.findIdx_cons, List.findIdx_cons]
    by_cases hx : x = t
    · subst hx
      simp
    · have hmem : t ∈ xs := by
        rcases List.mem_cons.mp hm with h1 | h1
        · exact absurd h1.symm hx
        · exact h1
      have hpc := List.pairwise_cons.mp hp
      have hxt : x ≤ t := hpc.1 t hmem
      have hnle : ¬ t ≤ x := fun hle => hx (le_antisymm hxt hle)
      rw [decide_eq_false hnle, decide_eq_false hx]
      simp [lowerBound_eq_exact xs hpc.2 t hmem]

/-- `advance_to_tag` on a sorted source containing `t` lands on the first
row whose tag is exactly `t`. -/
theorem advanceToTag_mem {T V : Type} [LinearOrder T] (df : DataFrame T V)
    (hs : List.Pairwise (· ≤ ·) df.tags) {t : T} (hm : t ∈ df.tags) :
    advanceToTag df t = df.tags.findIdx (fun x => decide (x = t)) := by
  have hlt : df.tags.findIdx (fun x => decide (x = t)) < df.tags.length :=
    List.findIdx_lt_length.mpr ⟨t, hm, by simp⟩
  have hfound : df.tags.get ⟨df.tags.findIdx (fun x => decide (x = t)), hlt⟩ = t := by
    have := @List.findIdx_get _ (fun x => decide (x = t)) df.tags hlt
    simpa using this
  unfold advanceToTag lowerBound
  rw [lowerBound_eq_exact df.tags hs t hm]
  rw [dif_pos hlt, if_pos hfound]

/-- `advance_to_tag` for a tag that is absent moves to `end()`, no matter
what rows remain. -/
theorem advanceToTag_not_mem {T V : Type} [LinearOrder T] (df : DataFrame T V)
    {t : T} (hm : t ∉ df.tags) : advanceToTag df t = df.size := by
  simp only [advanceToTag, lowerBound]
  split
  · rename_i hj
    split
    · rename_i heq
      exact absurd (heq ▸ List.get_mem df.tags _ _) hm
    · rfl
  · rfl

/-- The linear search only ever moves the derived cursor forward: its result
is the remaining rows with some prefix dropped. -/
theorem advanceLinear_drop {T V : Type} [DecidableEq T] (t : T) :
    ∀ rows : List (T × V), ∃ k, advanceLinear t rows = rows.drop k
  | [] => ⟨0, rfl⟩
  | (t0, v0) :: rest => by
    rw [advanceLinear]
    by_cases h : t0 = t
    · exact ⟨0, by simp [h]⟩
    · obtain ⟨k, hk⟩ := advanceLinear_drop t rest
      exact ⟨k + 1, by simp [h, hk]⟩

/-- The linear search stops exactly on a row tagged `t`. -/
theorem advanceLinear_head {T V : Type} [DecidableEq T] (t : T) :
    ∀ rows : List (T × V), ∀ p, (advanceLinear t rows).head? = some p → p.1 = t
  | [], p, h => by simp [advanceLinear] at h
  | (t0, v0) :: rest, p, h => by
    rw [advanceLinear] at h
    by_cases ht : t0 = t
    · rw [if_pos ht] at h
      cases h
      exact ht
    · rw [if_neg ht] at h
      exact advanceLinear_head t rest p h

/-- A repeated linear search for the same tag does not move the cursor. -/
theorem advanceLinear_idem {T V : Type} [DecidableEq T] (t : T) :
    ∀ rows : List (T × V), advanceLinear t (advanceLinear t rows) = advanceLinear t rows
  | [] => rfl
  | (t0, v0) :: rest => by
    rw [advanceLinear]
    by_cases h : t0 = t
    · rw [if_pos h, advanceLinear, if_pos h]
    · rw [if_neg h]
      exact advanceLinear_idem t rest

/-- C4 (amended): `advance_to_tag` looks for the exact tag `t`, not for the
first tag `>= t`.  The source cursor's binary search is independent of the
current position (so it can move backward): on a sorted source it lands on
the first row tagged exactly `t`, and moves to `end()` when no row is tagged
`t`, even if rows with larger tags remain; repeating it with the same `t`
leaves the position unchanged.  A derived cursor's linear search is forward
only (it drops a prefix of the remaining rows), stops on a row tagged
exactly `t` or at the end, and is also idempotent for a fixed `t`. -/
theorem c4_advance_to_tag_exact_search {T V : Type} [LinearOrder T]
    (df : DataFrame T V) (t : T) (i : Nat) (hs : List.Chain' (· ≤ ·) df.tags) :
    (t ∈ df.tags → stepAdvance df i t = df.tags.findIdx (fun x => decide (x = t)))
    ∧ (t ∉ df.tags → stepAdvance df i t = df.size)
    ∧ stepAdvance df (stepAdvance df i t) t = stepAdvance df i t
    ∧ (∀ rows : List (T × V), ∃ k, advanceLinear t rows = rows.drop k)
    ∧ (∀ rows : List (T × V), ∀ p, (advanceLinear t rows).head? = some p → p.1 = t)
    ∧ (∀ rows : List (T × V), advanceLinear t (advanceLinear t rows) = advanceLinear t rows) := by
  have hp : List.Pairwise (· ≤ ·) df.tags := List.chain'_iff_pairwise.mp hs
  refine ⟨fun hm => advanceToTag_mem df hp hm, fun hm => advanceToTag_not_mem df hm, rfl,
    advanceLinear_drop t, advanceLinear_head t, advanceLinear_idem t⟩

/-- Witness for C4's amended theorem at a concrete frame. -/
theorem c4_advance_to_tag_exact_search_witness :
    List.Chain' (· ≤ ·) (⟨[1, 2, 2, 3], [10, 20, 100, 30]⟩ : DataFrame Int Int).tags
    ∧ ((2 : Int) ∈ (⟨[1, 2, 2, 3], [10, 20, 100, 30]⟩ : DataFrame Int Int).tags →
        stepAdvance (⟨[1, 2, 2, 3], [10, 20, 100, 30]⟩ : DataFrame Int Int) 0 2
          = List.findIdx (fun x => decide (x = (2 : Int))) [1, 2, 2, 3]) := by
  refine ⟨by simp [List.chain'_cons], ?_⟩
  exact (c4_advance_to_tag_exact_search (⟨[1, 2, 2, 3], [10, 20, 100, 30]⟩ : DataFrame Int Int)
    2 0 (by simp [List.chain'_cons])).1

/-- C4 as stated is false: for the sorted source `{tags:[1,3]}` the call
`advance_to_tag(2)` jumps to `end()` although the row tagged `3 >= 2`
remains (the claim-modelled position is 1), and for `{tags:[1,2]}` a cursor
standing at position 1 moves backward to position 0 on `advance_to_tag(1)`. -/
theorem c4_counterexample :
    specAdvanceToTag (⟨[1, 3], [10, 30]⟩ : DataFrame Int Int) 0 2 = 1
    ∧ stepAdvance (⟨[1, 3], [10, 30]⟩ : DataFrame Int Int) 0 2 = 2
    ∧ (⟨[1, 3], [10, 30]⟩ : DataFrame Int Int).size = 2
    ∧ stepAdvance (⟨[1, 2], [10, 20]⟩ : DataFrame Int Int) 1 1 = 0 := by
  decide

/-! The reduction cursor (claim C3). -/

/-- In a tag-sorted row list every row strictly beyond the leading run of
tag `t` carries a tag strictly greater than `t`. -/
theorem dropWhile_run_gt {T V : Type} [LinearOrder T] (t : T) (rest : List (T × V))
    (hall : ∀ q ∈ rest, t ≤ q.1)
    (hp : List.Pairwise (· ≤ ·) (rest.map Prod.fst)) :
    ∀ q ∈ rest.dropWhile (fun p => p.1 = t), t < q.1 := by
  intro q hq
  cases hd : rest.dropWhile (fun p => p.1 = t) with
  | nil => rw [hd] at hq; simp at hq
  | cons q0 dtail =>
    have hsub : List.Sublist (q0 :: dtail) rest := hd ▸ List.dropWhile_sublist _
    have hq0_mem : q0 ∈ rest := List.Sublist.mem (by simp) hsub
    have hq0_ne : ¬ (q0.1 = t) := by
      have hlen : 0 < (rest.dropWhile (fun p => p.1 = t)).length := by
        rw [hd]; simp
      have := List.dropWhile_get_zero_not _ rest hlen
      rw [show (rest.dropWhile (fun p => p.1 = t)).get ⟨0, hlen⟩ = q0 by
        simp [hd]] at this
      simpa using this
    have hq0_gt : t < q0.1 := lt_of_le_of_ne (hall q0 hq0_mem) (fun h => hq0_ne h.symm)
    have hpd : List.Pairwise (· ≤ ·) ((q0 :: dtail).map Prod.fst) :=
      List.Pairwise.sublist (List.Sublist.map Prod.fst hsub) hp
    rw [hd] at hq
    rcases List.mem_cons.mp hq with h1 | h1
    · exact h1 ▸ hq0_gt
    · have hle : q0.1 ≤ q.1 := by
        rw [List.map_cons] at hpd
        exact (List.pairwise_cons.mp hpd).1 q.1 (List.mem_map_of_mem Prod.fst h1)
      exact lt_of_lt_of_le hq0_gt hle

/-- For a tag-sorted list the leading equal-tag run is everything the filter
by that tag finds. -/
theorem filter_eq_takeWhile_of_sorted {T V : Type} [LinearOrder T] (t : T) :
    ∀ rest : List (T × V), (∀ q ∈ rest, t ≤ q.1) →
      List.Pairwise (· ≤ ·) (rest.map Prod.fst) →
      rest.filter (fun p => p.1 = t) = rest.takeWhile (fun p => p.1 = t)
  | [], _, _ => rfl
  | q :: rest, hall, hp => by
    rw [List.map_cons] at hp
    have hpc := List.pairwise_cons.mp hp
    by_cases hq : q.1 = t
    · rw [List.filter_cons_of_pos (by simpa using hq),
        List.takeWhile_cons_of_pos (by simpa using hq)]
      exact congrArg _ (filter_eq_takeWhile_of_sorted t rest
        (fun q1 hq1 => hall q1 (List.mem_cons_of_mem _ hq1)) hpc.2)
    · rw [List.filter_cons_of_neg (by simpa using hq),
        List.takeWhile_cons_of_neg (by simpa using hq)]
      have hgt : t < q.1 := lt_of_le_of_ne (hall q (by simp)) (fun h => hq h.symm)
      rw [List.filter_eq_nil_iff.mpr]
      intro q1 hq1
      have hq1le : q.1 ≤ q1.1 := hpc.1 q1.1 (List.mem_map_of_mem Prod.fst hq1)
      have hlt : t < q1.1 := lt_of_lt_of_le hgt hq1le
      simpa using ne_of_gt hlt

/-- The reduction emits exactly the tags of its input (each tag of the
input appears on some output row, and no other tag appears). -/
theorem reduceRows_mem_tags {T V A : Type} [LinearOrder T]
    (init : T → V → A) (acc : T → V → A → A) (t' : T) :
    ∀ rows : List (T × V),
      (t' ∈ (reduceRows init acc rows).map Prod.fst ↔ t' ∈ rows.map Prod.fst) := by
  intro rows
  induction rows using reduceRows.induct init acc with
  | case1 => simp [reduceRows]
  | case2 t v rest ih =>
    rw [reduceRows]
    simp only [List.map_cons, List.mem_cons, ih]
    constructor
    · rintro (h | h)
      · exact Or.inl h
      · refine Or.inr ?_
        have hsub := List.Sublist.map Prod.fst
          (@List.dropWhile_sublist _ rest (fun p => decide (p.1 = t)))
        exact hsub.mem h
    · rintro (h | h)
      · exact Or.inl h
      · rcases List.mem_map.mp h with ⟨q, hq, rfl⟩
        rw [← List.takeWhile_append_dropWhile (fun p => decide (p.1 = t)) rest]
          at hq
        rcases List.mem_append.mp hq with h1 | h1
        · exact Or.inl (by simpa using List.mem_takeWhile_imp h1)
        · exact Or.inr (List.mem_map_of_mem Prod.fst h1)

/-- Over a tag-sorted child the reduction's output tags are strictly
increasing (one row per distinct tag, ascending). -/
theorem reduceRows_tags_sorted {T V A : Type} [LinearOrder T]
    (init : T → V → A) (acc : T → V → A → A) :
    ∀ rows : List (T × V), List.Pairwise (· ≤ ·) (rows.map Prod.fst) →
      List.Pairwise (· < ·) ((reduceRows init acc rows).map Prod.fst) := by
  intro rows
  induction rows using reduceRows.induct init acc with
  | case1 => simp [reduceRows]
  | case2 t v rest ih =>
    intro hp
    rw [List.map_cons] at hp
    have hpc := List.pairwise_cons.mp hp
    have hall : ∀ q ∈ rest, t ≤ q.1 :=
      fun q hq => hpc.1 q.1 (List.mem_map_of_mem Prod.fst hq)
    have hdp : List.Pairwise (· ≤ ·)
        ((rest.dropWhile (fun p => p.1 = t)).map Prod.fst) :=
      List.Pairwise.sublist (List.Sublist.map Prod.fst
        (@List.dropWhile_sublist _ rest (fun p => decide (p.1 = t)))) hpc.2
    rw [reduceRows, List.map_cons]
    refine List.pairwise_cons.mpr ⟨?_, ih hdp⟩
    intro t' ht'
    have ht'mem : t' ∈ (rest.dropWhile (fun p => p.1 = t)).map Prod.fst :=
      (reduceRows_mem_tags init acc t' _).mp ht'
    rcases List.mem_map.mp ht'mem with ⟨q, hq, rfl⟩
    exact dropWhile_run_gt t rest hall hpc.2 q hq

/-- Over a tag-sorted child every output value of the reduction is the left
fold of the accumulator over that tag's run (here described by `filter`),
starting from `init` applied to the run's first row. -/
theorem reduceRows_values {T V A : Type} [LinearOrder T]
    (init : T → V → A) (acc : T → V → A → A) :
    ∀ rows : List (T × V), List.Pairwise (· ≤ ·) (rows.map Prod.fst) →
      ∀ p ∈ reduceRows init acc rows,
        ∃ v0 run, rows.filter (fun q => q.1 = p.1) = (p.1, v0) :: run
          ∧ p.2 = run.foldl (fun a q => acc q.1 q.2 a) (init p.1 v0) := by
  intro rows
  induction rows using reduceRows.induct init acc with
  | case1 => intro _ p hp; simp [reduceRows] at hp
  | case2 t v rest ih =>
    intro hp p hpmem
    rw [List.map_cons] at hp
    have hpc := List.pairwise_cons.mp hp
    have hall : ∀ q ∈ rest, t ≤ q.1 :=
      fun q hq => hpc.1 q.1 (List.mem_map_of_mem Prod.fst hq)
    have hdp : List.Pairwise (· ≤ ·)
        ((rest.dropWhile (fun p => p.1 = t)).map Prod.fst) :=
      List.Pairwise.sublist (List.Sublist.map Prod.fst
        (@List.dropWhile_sublist _ rest (fun p => decide (p.1 = t)))) hpc.2
    rw [reduceRows] at hpmem
    rcases List.mem_cons.mp hpmem with hhead | htail
    · subst hhead
      refine ⟨v, rest.takeWhile (fun q => q.1 = t), ?_, rfl⟩
      rw [List.filter_cons_of_pos (by simp)]
      exact congrArg _ (filter_eq_takeWhile_of_sorted t rest hall hpc.2)
    · obtain ⟨v0, run, hfil, hval⟩ := ih hdp p htail
      have hptag : t < p.1 := by
        have hmem : p.1 ∈ (reduceRows init acc
            (rest.dropWhile (fun q => q.1 = t))).map Prod.fst :=
          List.mem_map_of_mem Prod.fst htail
        have := (reduceRows_mem_tags init acc p.1 _).mp hmem
        rcases List.mem_map.mp this with ⟨q, hq, hq2⟩
        exact hq2 ▸ dropWhile_run_gt t rest hall hpc.2 q hq
      refine ⟨v0, run, ?_, hval⟩
      rw [List.filter_cons_of_neg (by simpa using (ne_of_gt hptag).symm)]
      rw [← List.takeWhile_append_dropWhile (fun q => decide (q.1 = t)) rest,
        List.filter_append]
      rw [List.filter_eq_nil_iff.mpr, List.nil_append]
      · exact hfil
      · intro q hq
        have : q.1 = t := by simpa using List.mem_takeWhile_imp hq
        simpa [this] using (ne_of_gt hptag).symm

/-- C3: over a tag-sorted child with an invocable accumulate callback the
reduction has exactly one output row per distinct child tag (its tags are
strictly increasing and are exactly the child's tags), each output value is
the left fold of `acc` over that tag's run starting from `init` on the run's
first row, and reduce-sum of `{tags:[1,2,2,3], values:[10,20,100,30]}` gives
`{tags:[1,2,3], values:[10,120,30]}`. -/
theorem c3_reduction_groups_runs {T V A : Type} [LinearOrder T]
    (init : T → V → A) (acc : T → V → A → A) (rows : List (T × V))
    (hs : List.Chain' (· ≤ ·) (rows.map Prod.fst)) :
    List.Chain' (· < ·) ((reduceRows init acc rows).map Prod.fst)
    ∧ (∀ t' : T, t' ∈ (reduceRows init acc rows).map Prod.fst ↔ t' ∈ rows.map Prod.fst)
    ∧ (∀ p ∈ reduceRows init acc rows,
        ∃ v0 run, rows.filter (fun q => q.1 = p.1) = (p.1, v0) :: run
          ∧ p.2 = run.foldl (fun a q => acc q.1 q.2 a) (init p.1 v0))
    ∧ reduceRows (fun (_ : Int) (v : Int) => v) (fun _ v a => v + a)
        [((1 : Int), (10 : Int)), (2, 20), (2, 100), (3, 30)]
        = [(1, 10), (2, 120), (3, 30)] := by
  have hp : List.Pairwise (· ≤ ·) (rows.map Prod.fst) := List.chain'_iff_pairwise.mp hs
  refine ⟨List.chain'_iff_pairwise.mpr (reduceRows_tags_sorted init acc rows hp),
    fun t' => reduceRows_mem_tags init acc t' rows,
    reduceRows_values init acc rows hp, ?_⟩
  simp [reduceRows]

/-- Witness for C3 at the spec's own example. -/
theorem c3_reduction_groups_runs_witness :
    List.Chain' (· ≤ ·)
      (([((1 : Int), (10 : Int)), (2, 20), (2, 100), (3, 30)]).map Prod.fst)
    ∧ List.Chain' (· < ·)
      ((reduceRows (fun (_ : Int) (v : Int) => v) (fun _ v a => v + a)
        [((1 : Int), (10 : Int)), (2, 20), (2, 100), (3, 30)]).map Prod.fst) := by
  refine ⟨by simp [List.chain'_cons], ?_⟩
  exact (c3_reduction_groups_runs (fun (_ : Int) (v : Int) => v) (fun _ v a => v + a)
    [((1 : Int), (10 : Int)), (2, 20), (2, 100), (3, 30)] (by simp [List.chain'_cons])).1

/-! The union cursor (claims C2 and C9). -/

/-- A union drain never drops or invents rows: its length is the sum of the
input lengths (each step advances exactly one child). -/
theorem unionRows_length {T V : Type} [LinearOrder T] :
    ∀ ls rs : List (T × V), (unionRows ls rs).length = ls.length + rs.length := by
  intro ls rs
  induction ls, rs using unionRows.induct with
  | case1 => rw [unionRows]; rfl
  | case2 r rs ih => rw [unionRows]; simp only [List.length_cons, ih]; omega
  | case3 l ls ih => rw [unionRows]; simp only [List.length_cons, ih]; omega
  | case4 l ls r rs h ih =>
    rw [unionRows, if_pos h]; simp only [List.length_cons, ih]; omega
  | case5 l ls r rs h ih =>
    rw [unionRows, if_neg h]; simp only [List.length_cons, ih]; omega

/-- The first row a union emits is the current row of one of its children. -/
theorem unionRows_head? {T V : Type} [LinearOrder T] :
    ∀ ls rs : List (T × V), (unionRows ls rs).head? = ls.head?
      ∨ (unionRows ls rs).head? = rs.head? := by
  intro ls rs
  match ls, rs with
  | [], [] => left; rw [unionRows]
  | [], r :: rs => right; rw [unionRows]; simp
  | l :: ls, [] => left; rw [unionRows]; simp
  | l :: ls, r :: rs =>
    rw [unionRows]
    by_cases h : l.1 < r.1
    · left; rw [if_pos h]; simp
    · right; rw [if_neg h]; simp

/-- The head bound needed for the merge-sortedness induction: a tag that is
at most both children's current tags is at most the union's first tag. -/
theorem unionRows_head_bound {T V : Type} [LinearOrder T]
    (ls rs : List (T × V)) (a : T)
    (hl : ∀ p ∈ ls.head?, a ≤ p.1) (hr : ∀ p ∈ rs.head?, a ≤ p.1) :
    ∀ b ∈ ((unionRows ls rs).map Prod.fst).head?, a ≤ b := by
  intro b hb
  rw [List.head?_map] at hb
  rcases unionRows_head? ls rs with he | he <;> rw [he] at hb
  · cases hls : ls.head? with
    | none => rw [hls] at hb; simp at hb
    | some p =>
      rw [hls] at hb
      simp only [Option.map_some', Option.mem_def, Option.some.injEq] at hb
      exact hb ▸ hl p (by rw [hls]; rfl)
  · cases hrs : rs.head? with
    | none => rw [hrs] at hb; simp at hb
    | some p =>
      rw [hrs] at hb
      simp only [Option.map_some', Option.mem_def, Option.some.injEq] at hb
      exact hb ▸ hr p (by rw [hrs]; rfl)

/-- Merging two tag-sorted children keeps the output tag-sorted. -/
theorem unionRows_sorted {T V : Type} [LinearOrder T] :
    ∀ ls rs : List (T × V), List.Chain' (· ≤ ·) (ls.map Prod.fst) →
      List.Chain' (· ≤ ·) (rs.map Prod.fst) →
      List.Chain' (· ≤ ·) ((unionRows ls rs).map Prod.fst) := by
  intro ls rs
  induction ls, rs using unionRows.induct with
  | case1 => intro _ _; rw [unionRows]; simp
  | case2 r rs ih =>
    intro h1 h2
    rw [List.map_cons] at h2
    have h2c := List.chain'_cons'.mp h2
    rw [unionRows, List.map_cons]
    refine List.chain'_cons'.mpr ⟨?_, ih h1 h2c.2⟩
    refine unionRows_head_bound _ _ _ (by simp) ?_
    intro p hp
    have := h2c.1 p.1
    rw [List.head?_map] at this
    exact this (by rw [Option.mem_def] at hp; rw [hp]; rfl)
  | case3 l ls ih =>
    intro h1 h2
    rw [List.map_cons] at h1
    have h1c := List.chain'_cons'.mp h1
    rw [unionRows, List.map_cons]
    refine List.chain'_cons'.mpr ⟨?_, ih h1c.2 h2⟩
    refine unionRows_head_bound _ _ _ ?_ (by simp)
    intro p hp
    have := h1c.1 p.1
    rw [List.head?_map] at this
    exact this (by rw [Option.mem_def] at hp; rw [hp]; rfl)
  | case4 l ls r rs h ih =>
    intro h1 h2
    rw [List.map_cons] at h1
    have h1c := List.chain'_cons'.mp h1
    rw [unionRows, if_pos h, List.map_cons]
    refine List.chain'_cons'.mpr ⟨?_, ih h1c.2 h2⟩
    refine unionRows_head_bound _ _ _ ?_ ?_
    · intro p hp
      have := h1c.1 p.1
      rw [List.head?_map] at this
      exact this (by rw [Option.mem_def] at hp; rw [hp]; rfl)
    · intro p hp
      rw [Option.mem_def, List.head?_cons, Option.some.injEq] at hp
      exact hp ▸ le_of_lt h
  | case5 l ls r rs h ih =>
    intro h1 h2
    rw [List.map_cons] at h2
    have h2c := List.chain'_cons'.mp h2
    rw [unionRows, if_neg h, List.map_cons]
    refine List.chain'_cons'.mpr ⟨?_, ih h1 h2c.2⟩
    refine unionRows_head_bound _ _ _ ?_ ?_
    · intro p hp
      rw [Option.mem_def, List.head?_cons, Option.some.injEq] at hp
      exact hp ▸ le_of_not_lt h
    · intro p hp
      have := h2c.1 p.1
      rw [List.head?_map] at this
      exact this (by rw [Option.mem_def] at hp; rw [hp]; rfl)

/-- C2 (amended): at a shared tag the union emits the right child's current
row first and advances only the right child, so the left row at that tag
follows only after the right child's run of that tag is exhausted; the
concrete concatenate example holds, and the output length always equals the
sum of the input lengths. -/
theorem c2_union_right_first_tie_break {T V : Type} [LinearOrder T]
    (lt rt : T × V) (ls rs : List (T × V)) (h : lt.1 = rt.1) :
    unionRows (lt :: ls) (rt :: rs) = rt :: unionRows (lt :: ls) rs
    ∧ (∀ as bs : List (T × V), (unionRows as bs).length = as.length + bs.length)
    ∧ unionRows [((1 : Int), (10 : Int)), (2, 20), (3, 30)] [(2, 21), (4, 40)]
        = [(1, 10), (2, 21), (2, 20), (3, 30), (4, 40)] := by
    refine ⟨?_, unionRows_length, by simp [unionRows]⟩
    rw [unionRows, if_neg (by rw [h]; exact lt_irrefl _)]

/-- Witness for C2's amended theorem at a concrete tie. -/
theorem c2_union_right_first_tie_break_witness :
    ((2 : Int), (20 : Int)).1 = ((2 : Int), (21 : Int)).1
    ∧ unionRows [((2 : Int), (20 : Int))] [((2 : Int), (21 : Int))]
        = ((2 : Int), (21 : Int)) :: unionRows [((2 : Int), (20 : Int))] [] :=
  ⟨by decide,
    (c2_union_right_first_tie_break ((2 : Int), (20 : Int)) ((2 : Int), (21 : Int))
      [] [] (by decide)).1⟩

/-- C2 as stated is false: with a duplicated tag on the right, the step
after the first right-first tie emission is the right child's second row,
not the left child's row.  Draining `L = {(2,20)}` against
`R = {(2,21),(2,22)}` gives `[(2,21),(2,22),(2,20)]`, whose second element
is not `(2,20)`. -/
theorem c2_counterexample :
    unionRows [((2 : Int), (20 : Int))] [(2, 21), (2, 22)] = [(2, 21), (2, 22), (2, 20)]
    ∧ (unionRows [((2 : Int), (20 : Int))] [(2, 21), (2, 22)])[1]? ≠ some (2, 20) := by
  refine ⟨by simp [unionRows], ?_⟩
  rw [show unionRows [((2 : Int), (20 : Int))] [(2, 21), (2, 22)]
    = [(2, 21), (2, 22), (2, 20)] by simp [unionRows]]
  decide


/-- C9 is violated by `Expr_Union`: its pick guards evaluate
`df1.tag < df2.tag` before `df2.end()` (and `df2.tag <= df1.tag` before
`df1.end()`), so whenever exactly one child has ended the other comparison
dereferences the ended child's tag reference.  Already the constructor of
`concatenate({tags:[1],values:[10]}, {})` performs such a read. -/
theorem c9_union_reads_ended_child_tag :
    unionReadsEndedAt [((1 : Int), (10 : Int))] ([] : List (Int × Int)) = true
    ∧ unionDrainReadsEnded [((1 : Int), (10 : Int))] ([] : List (Int × Int)) = true := by
  refine ⟨by decide, ?_⟩
  rw [unionDrainReadsEnded]
  simp [unionDrainReadsEnded]

/-- C1 is violated by `Expr_Intersection::update_tagvalue`: `_end` is set to
`df2.end()` before the scan loop, so when the trailing right rows have no
matching left tag the scan exhausts the right cursor while `_end` is still
false, and materialize emits the stale registers once more.  For
`L = {tags:[2],values:[5]}`, `R = {tags:[2,3],values:[20,30]}` and
`combine = +` the code produces `{tags:[2,2],values:[25,25]}`, whereas the
spec's pseudocode (modelled by `specIntersection`) gives
`{tags:[2],values:[25]}`. -/
theorem c1_intersection_spurious_trailing_row :
    materializeInter (⟨[2], [5]⟩ : DataFrame Int Int) ⟨[2, 3], [20, 30]⟩
      (fun _ a b => a + b) = some ⟨[2, 2], [25, 25]⟩
    ∧ specIntersection (⟨[2], [5]⟩ : DataFrame Int Int) ⟨[2, 3], [20, 30]⟩
      (fun _ a b => a + b) = ⟨[2], [25]⟩ := by
  constructor
  · simp +decide [materializeInter, interDrain, interDrainScan, DataFrame.rows,
      advanceToTag, lowerBound, DataFrame.size, materializeRows, List.findIdx_cons]
  · decide

/-- C10: when the right row's tag occurs in the (sorted, equal-length) left
frame, the intersection combines it with the left row at the first index
bearing that tag — `advance_to_tag`'s binary search always lands on the
first occurrence, so duplicate left rows beyond it are never read; and
intersecting `L = {tags:[2,2],values:[5,7]}` with `R = {tags:[2],values:[100]}`
under `combine(t,a,b) = 1000*a + b` gives `{tags:[2],values:[5100]}`. -/
theorem c10_intersection_first_match_wins {T V1 V2 W : Type} [LinearOrder T]
    (df1 : DataFrame T V1) (hs : List.Chain' (· ≤ ·) df1.tags)
    (hlen : df1.tags.length = df1.values.length)
    (merge : T → V1 → V2 → W) (t : T) (v : V2) (rrows : List (T × V2))
    (reg : Option (T × W)) (hm : t ∈ df1.tags) :
    (∃ hj : df1.tags.findIdx (fun x => decide (x = t)) < df1.values.length,
      interDrainScan df1 merge reg ((t, v) :: rrows)
        = (interDrain df1 merge
            (some (t, merge t (df1.values.get ⟨df1.tags.findIdx (fun x => decide (x = t)), hj⟩) v))
            rrows).map
            ((t, merge t (df1.values.get ⟨df1.tags.findIdx (fun x => decide (x = t)), hj⟩) v) :: ·))
    ∧ materializeInter (⟨[2, 2], [5, 7]⟩ : DataFrame Int Int) ⟨[2], [100]⟩
        (fun _ a b => 1000 * a + b) = some ⟨[2], [5100]⟩ := by
  constructor
  · have hp : List.Pairwise (· ≤ ·) df1.tags := List.chain'_iff_pairwise.mp hs
    have hadv : advanceToTag df1 t = df1.tags.findIdx (fun x => decide (x = t)) :=
      advanceToTag_mem df1 hp hm
    have hjt : df1.tags.findIdx (fun x => decide (x = t)) < df1.tags.length :=
      List.findIdx_lt_length.mpr ⟨t, hm, by simp⟩
    have hj : df1.tags.findIdx (fun x => decide (x = t)) < df1.values.length :=
      hlen ▸ hjt
    refine ⟨hj, ?_⟩
    have hget : df1.tags.get ⟨df1.tags.findIdx (fun x => decide (x = t)), hjt⟩ = t := by
      have := @List.findIdx_get _ (fun x => decide (x = t)) df1.tags hjt
      simpa using this
    rw [interDrainScan]
    simp only [hadv, dif_pos hjt]
    rw [List.getElem?_eq_getElem hj]
    simp only [Option.map_some']
    rw [show df1.tags.get ⟨df1.tags.findIdx (fun x => decide (x = t)), hjt⟩ = t from hget]
    rfl
  · simp +decide [materializeInter, interDrain, interDrainScan, DataFrame.rows,
      advanceToTag, lowerBound, DataFrame.size, materializeRows, List.findIdx_cons]

/-- Witness for C10 at a left frame with a duplicated tag. -/
theorem c10_intersection_first_match_wins_witness :
    List.Chain' (· ≤ ·) (⟨[2, 2], [5, 7]⟩ : DataFrame Int Int).tags
    ∧ (2 : Int) ∈ (⟨[2, 2], [5, 7]⟩ : DataFrame Int Int).tags
    ∧ materializeInter (⟨[2, 2], [5, 7]⟩ : DataFrame Int Int) ⟨[2], [100]⟩
        (fun _ a b => 1000 * a + b) = some ⟨[2], [5100]⟩ := by
  refine ⟨by simp [List.chain'_cons], by decide, ?_⟩
  exact (c10_intersection_first_match_wins (⟨[2, 2], [5, 7]⟩ : DataFrame Int Int)
    (by simp [List.chain'_cons]) (by decide) (fun _ a b => 1000 * a + b) 2 100 [] none
    (by decide)).2


/-! The retag cursor (claims C5 and C6). -/

/-- C6: constructing a Retag from two frames of different sizes throws
`std::invalid_argument` before the traversal order is computed (the model's
`Except.error` is returned without calling `argsort`), and with equal sizes
no error is raised — the constructor proceeds to compute the argsort
traversal. -/
theorem c6_retag_length_mismatch_fails_fast {T1 V1 T2 V2 : Type} [LinearOrder V1]
    (df_tags : DataFrame T1 V1) (df_values : DataFrame T2 V2) :
    (df_tags.size ≠ df_values.size →
      mkRetag df_tags df_values
        = Except.error "df_tags and df_values must have the same length")
    ∧ (df_tags.size = df_values.size →
      mkRetag df_tags df_values = Except.ok (argsort df_tags.values)) := by
  constructor <;> intro h <;> simp [mkRetag, h]

/-- Witness for C6 in both directions. -/
theorem c6_retag_length_mismatch_fails_fast_witness :
    ((⟨[1], [7]⟩ : DataFrame Int Int).size ≠ (⟨[], []⟩ : DataFrame Int Int).size →
      mkRetag (⟨[1], [7]⟩ : DataFrame Int Int) (⟨[], []⟩ : DataFrame Int Int)
        = Except.error "df_tags and df_values must have the same length")
    ∧ ((⟨[1], [7]⟩ : DataFrame Int Int).size ≠ (⟨[], []⟩ : DataFrame Int Int).size)
    ∧ ((⟨[2], [8]⟩ : DataFrame Int Int).size = (⟨[3], [9]⟩ : DataFrame Int Int).size →
      mkRetag (⟨[2], [8]⟩ : DataFrame Int Int) (⟨[3], [9]⟩ : DataFrame Int Int)
        = Except.ok (argsort (⟨[2], [8]⟩ : DataFrame Int Int).values))
    ∧ ((⟨[2], [8]⟩ : DataFrame Int Int).size = (⟨[3], [9]⟩ : DataFrame Int Int).size) :=
  ⟨(c6_retag_length_mismatch_fails_fast _ _).1, by decide,
    (c6_retag_length_mismatch_fails_fast _ _).2, by decide⟩

/-- Inserting an index into the ordered bucket map prepends it (as a
multiset) to the flattened traversal. -/
theorem mapFlatten_mapInsert_perm {K : Type} [LinearOrder K] (k : K) (i : Nat) :
    ∀ m : List (K × List Nat), (mapFlatten (mapInsert k i m)).Perm (i :: mapFlatten m)
  | [] => by simp [mapInsert, mapFlatten]
  | (k0, is) :: rest => by
    rw [mapInsert]
    by_cases h1 : k < k0
    · rw [if_pos h1]
      simp [mapFlatten]
    · rw [if_neg h1]
      by_cases h2 : k = k0
      · rw [if_pos h2]
        simp only [mapFlatten, List.map_cons, List.flatten_cons]
        rw [List.append_assoc]
        exact List.perm_middle.trans (by simp [mapFlatten])
      · rw [if_neg h2]
        simp only [mapFlatten, List.map_cons, List.flatten_cons]
        refine ((mapFlatten_mapInsert_perm k i rest).append_left is).trans ?_
        exact List.perm_middle.trans (by simp [mapFlatten])

/-- Folding the enumerated array into the bucket map accumulates exactly the
enumerated indices. -/
theorem mapFlatten_foldl_perm {K : Type} [LinearOrder K] :
    ∀ (l : List (Nat × K)) (m : List (K × List Nat)),
      (mapFlatten (l.foldl (fun m p => mapInsert p.2 p.1 m) m)).Perm
        (l.map Prod.fst ++ mapFlatten m)
  | [], m => by simp
  | p :: l, m => by
    rw [List.foldl_cons]
    refine (mapFlatten_foldl_perm l (mapInsert p.2 p.1 m)).trans ?_
    refine ((mapFlatten_mapInsert_perm p.2 p.1 m).append_left (l.map Prod.fst)).trans ?_
    simp only [List.map_cons, List.cons_append]
    exact List.perm_middle

/-- `argsort` produces a permutation of the index range of its input. -/
theorem argsort_perm {K : Type} [LinearOrder K] (array : List K) :
    (argsort array).Perm (List.range array.length) := by
  unfold argsort
  refine (mapFlatten_foldl_perm array.enum []).trans ?_
  rw [List.enum_eq_enumFrom]
  simp [List.enumFrom_map_fst, mapFlatten, List.range_eq_range']


/-- Every key of the map after an insertion is the inserted key or an old
key. -/
theorem mapInsert_keys {K : Type} [LinearOrder K] (k : K) (i : Nat) :
    ∀ m : List (K × List Nat), ∀ b ∈ mapInsert k i m, b.1 = k ∨ b.1 ∈ m.map Prod.fst
  | [], b, hb => by
    rw [mapInsert] at hb
    rcases List.mem_cons.mp hb with h | h
    · exact Or.inl (by rw [h])
    · simp at h
  | (k0, is) :: rest, b, hb => by
    rw [mapInsert] at hb
    by_cases h1 : k < k0
    · rw [if_pos h1] at hb
      rcases List.mem_cons.mp hb with h | h
      · exact Or.inl (by rw [h])
      · exact Or.inr (List.mem_map_of_mem Prod.fst h)
    · rw [if_neg h1] at hb
      by_cases h2 : k = k0
      · rw [if_pos h2] at hb
        rcases List.mem_cons.mp hb with h | h
        · refine Or.inr ?_
          rw [h, List.map_cons]
          exact List.mem_cons_self _ _
        · refine Or.inr ?_
          rw [List.map_cons]
          exact List.mem_cons_of_mem _ (List.mem_map_of_mem Prod.fst h)
      · rw [if_neg h2] at hb
        rcases List.mem_cons.mp hb with h | h
        · refine Or.inr ?_
          rw [h, List.map_cons]
          exact List.mem_cons_self _ _
        · rcases mapInsert_keys k i rest b h with h3 | h3
          · exact Or.inl h3
          · refine Or.inr ?_
            rw [List.map_cons]
            exact List.mem_cons_of_mem _ h3

/-- One `indices_map[array[i]].push_back(i)` step preserves the map
invariants: keys strictly sorted, buckets strictly increasing, every stored
index in range with the bucket's key as its array value. -/
theorem mapInsert_WF {K : Type} [LinearOrder K] (array : List K) (k : K) (n : Nat)
    (hk : array[n]? = some k) :
    ∀ m : List (K × List Nat),
      List.Pairwise (fun a b => a.1 < b.1) m →
      (∀ p ∈ m, List.Pairwise (· < ·) p.2 ∧ ∀ i ∈ p.2, i < n ∧ array[i]? = some p.1) →
      List.Pairwise (fun a b => a.1 < b.1) (mapInsert k n m)
      ∧ (∀ p ∈ mapInsert k n m,
          List.Pairwise (· < ·) p.2 ∧ ∀ i ∈ p.2, i < n + 1 ∧ array[i]? = some p.1)
  | [], _, _ => by
    refine ⟨by rw [mapInsert]; simp, ?_⟩
    intro p hp
    rw [mapInsert] at hp
    rcases List.mem_cons.mp hp with h | h
    · subst h
      refine ⟨by simp, ?_⟩
      intro i hi
      rw [List.mem_singleton] at hi
      subst hi
      exact ⟨Nat.lt_succ_self _, hk⟩
    · simp at h
  | (k0, is) :: rest, hkeys, hbuckets => by
    have hkc := List.pairwise_cons.mp hkeys
    rw [mapInsert]
    by_cases h1 : k < k0
    · rw [if_pos h1]
      constructor
      · refine List.pairwise_cons.mpr ⟨?_, hkeys⟩
        intro b hb
        rcases List.mem_cons.mp hb with h | h
        · rw [h]; exact h1
        · exact lt_trans h1 (hkc.1 b h)
      · intro p hp
        rcases List.mem_cons.mp hp with h | h
        · subst h
          refine ⟨by simp, ?_⟩
          intro i hi
          rw [List.mem_singleton] at hi
          subst hi
          exact ⟨Nat.lt_succ_self _, hk⟩
        · have hb := hbuckets p h
          exact ⟨hb.1, fun i hi => ⟨Nat.lt_succ_of_lt (hb.2 i hi).1, (hb.2 i hi).2⟩⟩
    · rw [if_neg h1]
      by_cases h2 : k = k0
      · rw [if_pos h2]
        subst h2
        constructor
        · exact List.pairwise_cons.mpr ⟨fun b hb => hkc.1 b hb, hkc.2⟩
        · intro p hp
          rcases List.mem_cons.mp hp with h | h
          · subst h
            have hb := hbuckets (k, is) (by simp)
            constructor
            · rw [List.pairwise_append]
              refine ⟨hb.1, by simp, ?_⟩
              intro a ha b hb2
              rw [List.mem_singleton] at hb2
              subst hb2
              exact (hb.2 a ha).1
            · intro i hi
              rcases List.mem_append.mp hi with h | h
              · exact ⟨Nat.lt_succ_of_lt (hb.2 i h).1, (hb.2 i h).2⟩
              · rw [List.mem_singleton] at h
                subst h
                exact ⟨Nat.lt_succ_self _, hk⟩
          · have hb := hbuckets p (List.mem_cons_of_mem _ h)
            exact ⟨hb.1, fun i hi => ⟨Nat.lt_succ_of_lt (hb.2 i hi).1, (hb.2 i hi).2⟩⟩
      · rw [if_neg h2]
        have hlt : k0 < k := lt_of_le_of_ne (le_of_not_lt h1) (Ne.symm h2)
        have ih := mapInsert_WF array k n hk rest hkc.2
          (fun p hp => hbuckets p (List.mem_cons_of_mem _ hp))
        constructor
        · refine List.pairwise_cons.mpr ⟨?_, ih.1⟩
          intro b hb
          rcases mapInsert_keys k n rest b hb with h | h
          · rw [h]; exact hlt
          · rcases List.mem_map.mp h with ⟨q, hq, hq2⟩
            rw [← hq2]
            exact hkc.1 q hq
        · intro p hp
          rcases List.mem_cons.mp hp with h | h
          · subst h
            have hb := hbuckets (k0, is) (by simp)
            exact ⟨hb.1, fun i hi => ⟨Nat.lt_succ_of_lt (hb.2 i hi).1, (hb.2 i hi).2⟩⟩
          · exact ih.2 p h

/-- Folding the enumerated suffix of the array into a well-formed bucket map
keeps the map well formed, with the index bound advanced past the suffix. -/
theorem foldl_enumFrom_WF {K : Type} [LinearOrder K] (array : List K) :
    ∀ (l : List K) (n : Nat) (m : List (K × List Nat)),
      array.drop n = l →
      List.Pairwise (fun a b => a.1 < b.1) m →
      (∀ p ∈ m, List.Pairwise (· < ·) p.2 ∧ ∀ i ∈ p.2, i < n ∧ array[i]? = some p.1) →
      List.Pairwise (fun a b => a.1 < b.1)
        ((l.enumFrom n).foldl (fun m p => mapInsert p.2 p.1 m) m)
      ∧ (∀ p ∈ (l.enumFrom n).foldl (fun m p => mapInsert p.2 p.1 m) m,
          List.Pairwise (· < ·) p.2 ∧ ∀ i ∈ p.2, i < n + l.length ∧ array[i]? = some p.1)
  | [], n, m, hd, hkeys, hbuckets => by
    refine ⟨hkeys, ?_⟩
    intro p hp
    have hb := hbuckets p hp
    exact ⟨hb.1, fun i hi => ⟨by have := (hb.2 i hi).1; omega, (hb.2 i hi).2⟩⟩
  | x :: xs, n, m, hd, hkeys, hbuckets => by
    have hx : array[n]? = some x := by
      have hget := List.getElem?_drop array n 0
      rw [hd] at hget
      simpa using hget.symm
    have hins := mapInsert_WF array x n hx m hkeys hbuckets
    have hd2 : array.drop (n + 1) = xs := by
      have hdd := List.drop_drop 1 n array
      rw [hd] at hdd
      simpa using hdd.symm
    rw [List.enumFrom_cons, List.foldl_cons]
    have hrec := foldl_enumFrom_WF array xs (n + 1) (mapInsert x n m) hd2 hins.1 hins.2
    refine ⟨hrec.1, ?_⟩
    intro p hp
    refine ⟨(hrec.2 p hp).1, ?_⟩
    intro i hi
    have hfact := (hrec.2 p hp).2 i hi
    exact ⟨by have := hfact.1; simp only [List.length_cons]; omega, hfact.2⟩

/-- The argsort traversal is stable: along it, the array values are
non-decreasing, and positions carrying equal values keep their original
relative order. -/
theorem argsort_pairwise_lex {K : Type} [LinearOrder K] (array : List K) :
    List.Pairwise (fun i j => ∀ ki kj, array[i]? = some ki → array[j]? = some kj →
      ki < kj ∨ (ki = kj ∧ i < j)) (argsort array) := by
  have h := foldl_enumFrom_WF array array 0 [] (by simp) (by simp) (by simp)
  unfold argsort mapFlatten
  rw [List.enum_eq_enumFrom, List.pairwise_flatten]
  constructor
  · intro l hl
    rcases List.mem_map.mp hl with ⟨p, hp, rfl⟩
    have hb := h.2 p hp
    refine hb.1.imp_of_mem ?_
    intro i j hi hj hij ki kj hki hkj
    have hki2 : ki = p.1 := by
      have := (hb.2 i hi).2
      rw [this] at hki
      exact (Option.some.injEq _ _ ▸ hki).symm ▸ rfl
    have hkj2 : kj = p.1 := by
      have := (hb.2 j hj).2
      rw [this] at hkj
      exact (Option.some.injEq _ _ ▸ hkj).symm ▸ rfl
    exact Or.inr ⟨hki2.trans hkj2.symm, hij⟩
  · rw [List.pairwise_map]
    refine h.1.imp_of_mem ?_
    intro p q hp hq hpq i hi j hj ki kj hki hkj
    have hki2 : ki = p.1 := by
      have := (h.2 p hp).2 i hi
      rw [this.2] at hki
      exact (Option.some.injEq _ _ ▸ hki).symm ▸ rfl
    have hkj2 : kj = q.1 := by
      have := (h.2 q hq).2 j hj
      rw [this.2] at hkj
      exact (Option.some.injEq _ _ ▸ hkj).symm ▸ rfl
    exact Or.inl (hki2 ▸ hkj2 ▸ hpq)


/-- Reading a whole index range through `getElem?` reproduces the list. -/
theorem filterMap_getElem?_range {α : Type} :
    ∀ (n : Nat) (rows : List α), n ≤ rows.length →
      (List.range n).filterMap (fun j => rows[j]?) = rows.take n
  | 0, rows, _ => by simp
  | n + 1, rows, h => by
    rw [List.range_succ, List.filterMap_append,
      filterMap_getElem?_range n rows (by omega), List.take_succ]
    have hn : rows[n]? = some (rows.get ⟨n, by omega⟩) :=
      List.getElem?_eq_getElem (by omega)
    simp [hn]

/-- The retag expression reads the tag-source values and the value-source
values pairwise: its emission at traversal index `j` is row `j` of the
zipped inputs. -/
theorem retagRows_eq_zip_reads {T V : Type} [LinearOrder T] (keys : List T)
    (vals : List V) :
    retagRows keys vals = (argsort keys).filterMap (fun j => (keys.zip vals)[j]?) := by
  unfold retagRows
  refine List.filterMap_congr ?_
  intro j _
  rw [List.zip_eq_zipWith, List.getElem?_zipWith]
  rfl

/-- The retag output's tags (the tag-source's values read through the
argsort traversal) are non-decreasing. -/
theorem retagRows_tags_sorted {T V : Type} [LinearOrder T] (keys : List T)
    (vals : List V) :
    List.Chain' (· ≤ ·) ((retagRows keys vals).map Prod.fst) := by
  rw [List.chain'_iff_pairwise, List.pairwise_map]
  unfold retagRows
  rw [List.pairwise_filterMap]
  refine (argsort_pairwise_lex keys).imp ?_
  intro i j hij b hb c hc
  rcases hki : keys[i]? with _ | ki
  · rw [hki] at hb; simp at hb
  rcases hvi : vals[i]? with _ | vi
  · rw [hki, hvi] at hb; simp at hb
  rcases hkj : keys[j]? with _ | kj
  · rw [hkj] at hc; simp at hc
  rcases hvj : vals[j]? with _ | vj
  · rw [hkj, hvj] at hc; simp at hc
  rw [hki, hvi] at hb
  rw [hkj, hvj] at hc
  simp only [Option.mem_def, Option.some.injEq] at hb hc
  rcases hij ki kj hki hkj with hlt | heq
  · rw [← hb, ← hc]
    exact le_of_lt hlt
  · rw [← hb, ← hc]
    exact le_of_eq heq.1

/-- C5: retagging two equal-length sequences traverses every row exactly
once (`argsort` permutes the index range), the traversal is a stable sort of
the positions by the tag-source's values, the output tags (the tag-source's
values) come out non-decreasing, the output rows are a permutation of the
index-aligned input pairs, and the spec's example sorts
`keys = [-20,-10,-30]`, `vals = [20,10,30]` into
`[(-30,30),(-20,20),(-10,10)]`. -/
theorem c5_retag_stable_sort {T V : Type} [LinearOrder T] (keys : List T)
    (vals : List V) (h : keys.length = vals.length) :
    (argsort keys).Perm (List.range keys.length)
    ∧ List.Pairwise (fun i j => ∀ ki kj, keys[i]? = some ki → keys[j]? = some kj →
        ki < kj ∨ (ki = kj ∧ i < j)) (argsort keys)
    ∧ List.Chain' (· ≤ ·) ((retagRows keys vals).map Prod.fst)
    ∧ (retagRows keys vals).Perm (keys.zip vals)
    ∧ retagRows [(-20 : Int), -10, -30] [(20 : Int), 10, 30]
        = [(-30, 30), (-20, 20), (-10, 10)] := by
  refine ⟨argsort_perm keys, argsort_pairwise_lex keys,
    retagRows_tags_sorted keys vals, ?_, by decide⟩
  rw [retagRows_eq_zip_reads]
  refine ((argsort_perm keys).filterMap (fun j => (keys.zip vals)[j]?)).trans ?_
  have hlen : keys.length ≤ (keys.zip vals).length := by
    rw [List.length_zip]
    omega
  rw [filterMap_getElem?_range keys.length (keys.zip vals) hlen]
  have htake : (keys.zip vals).take keys.length = keys.zip vals := by
    have hz : (keys.zip vals).length = keys.length := by
      rw [List.length_zip]; omega
    rw [← hz, List.take_length]
  rw [htake]

/-- Witness for C5 at the spec's example. -/
theorem c5_retag_stable_sort_witness :
    ([(-20 : Int), -10, -30] : List Int).length = ([(20 : Int), 10, 30] : List Int).length
    ∧ retagRows [(-20 : Int), -10, -30] [(20 : Int), 10, 30]
        = [(-30, 30), (-20, 20), (-10, 10)] :=
  ⟨by decide,
    (c5_retag_stable_sort [(-20 : Int), -10, -30] [(20 : Int), 10, 30]
      (by decide)).2.2.2.2⟩


/-! The pipeline invariant (claim C7). -/

/-- A successful source drain yields exactly the source's tags as the tag
column. -/
theorem srcDrainAux_tags {T V : Type} (df : DataFrame T V) :
    ∀ fuel i rows, optRows (srcDrainAux df fuel i) = some rows →
      rows.map Prod.fst = (df.tags.drop i).take fuel
  | 0, i, rows, h => by
    rw [srcDrainAux] at h
    rw [optRows] at h
    cases h
    simp
  | fuel + 1, i, rows, h => by
    rw [srcDrainAux] at h
    by_cases hi : i < df.tags.length
    · rw [if_pos hi] at h
      have htag : df.tags[i]? = some (df.tags.get ⟨i, hi⟩) :=
        List.getElem?_eq_getElem hi
      rw [htag] at h
      rcases hval : df.values[i]? with _ | v
      · rw [hval] at h
        simp [optRows] at h
      · rw [hval] at h
        rw [optRows] at h
        rcases hrec : optRows (srcDrainAux df fuel (i + 1)) with _ | rs
        · rw [hrec] at h
          cases h
        · rw [hrec] at h
          simp only [Option.map_some'] at h
          cases h
          rw [List.map_cons, srcDrainAux_tags df fuel (i + 1) rs hrec,
            List.drop_eq_getElem_cons hi, List.take_succ_cons]
          simp
    · rw [if_neg hi] at h
      rw [optRows] at h
      cases h
      have hd : df.tags.drop i = [] := List.drop_eq_nil_of_le (by omega)
      simp [hd]

/-- Sortedness of the intersection drain (source-cursor left side): over a
tag-sorted right sequence every produced output is tag-sorted, and every
output row is the register passed in or carries one of the remaining right
tags. -/
theorem interDrain_sorted {T V1 V2 W : Type} [LinearOrder T] (df1 : DataFrame T V1)
    (merge : T → V1 → V2 → W) :
    ∀ n (rows : List (T × V2)) (reg : Option (T × W)) (out : List (T × W)),
      rows.length ≤ n →
      List.Pairwise (· ≤ ·) (rows.map Prod.fst) →
      ((interDrain df1 merge reg rows = some out →
        List.Pairwise (· ≤ ·) (out.map Prod.fst)
        ∧ ∀ p ∈ out, (∃ q, reg = some q ∧ p = q) ∨ p.1 ∈ rows.map Prod.fst)
      ∧ (interDrainScan df1 merge reg rows = some out →
        List.Pairwise (· ≤ ·) (out.map Prod.fst)
        ∧ ∀ p ∈ out, (∃ q, reg = some q ∧ p = q) ∨ p.1 ∈ rows.map Prod.fst)) := by
  intro n
  induction n with
  | zero =>
    intro rows reg out hn hp
    have hrows : rows = [] := List.length_eq_zero.mp (by omega)
    subst hrows
    constructor
    · intro h
      rw [interDrain] at h
      cases h
      exact ⟨List.Pairwise.nil, by simp⟩
    · intro h
      rw [interDrainScan.eq_def] at h
      rcases reg with _ | q
      · simp at h
      · have h2 : some [q] = some out := h
        cases h2
        exact ⟨by simp, fun p hp2 => Or.inl ⟨q, rfl, by simpa using hp2⟩⟩
  | succ n ih =>
    intro rows reg out hn hp
    match rows with
    | [] =>
      constructor
      · intro h
        rw [interDrain] at h
        cases h
        exact ⟨List.Pairwise.nil, by simp⟩
      · intro h
        rw [interDrainScan.eq_def] at h
        rcases reg with _ | q
        · simp at h
        · have h2 : some [q] = some out := h
          cases h2
          exact ⟨by simp, fun p hp2 => Or.inl ⟨q, rfl, by simpa using hp2⟩⟩
    | (t, v) :: rest =>
      have hrest : rest.length ≤ n := by
        rw [List.length_cons] at hn
        omega
      have hscan : interDrainScan df1 merge reg ((t, v) :: rest) = some out →
          List.Pairwise (· ≤ ·) (out.map Prod.fst)
          ∧ ∀ p ∈ out, (∃ q, reg = some q ∧ p = q)
            ∨ p.1 ∈ ((t, v) :: rest).map Prod.fst := by
        intro h
        rw [interDrainScan] at h
        rw [List.map_cons] at hp
        have hpc := List.pairwise_cons.mp hp
        by_cases hj : advanceToTag df1 t < df1.tags.length
        · rw [dif_pos hj] at h
          rcases hval : df1.values[advanceToTag df1 t]? with _ | vl
          · rw [hval] at h
            simp only [Option.map_none'] at h
            cases h
          · rw [hval] at h
            simp only [Option.map_some'] at h
            rcases hrec : interDrain df1 merge
                (some (t, merge (df1.tags.get ⟨advanceToTag df1 t, hj⟩) vl v)) rest
              with _ | out1
            · rw [hrec] at h
              cases h
            · rw [hrec] at h
              simp only [Option.map_some'] at h
              cases h
              have hih := (ih rest _ out1 hrest hpc.2).1 hrec
              constructor
              · rw [List.map_cons]
                refine List.pairwise_cons.mpr ⟨?_, hih.1⟩
                intro b hb
                rcases List.mem_map.mp hb with ⟨p, hpm, rfl⟩
                rcases hih.2 p hpm with ⟨q, hq, rfl⟩ | hmem
                · cases hq
                  exact le_refl _
                · exact hpc.1 p.1 hmem
              · intro p hpm
                rcases List.mem_cons.mp hpm with h1 | h1
                · subst h1
                  exact Or.inr (by simp)
                · rcases hih.2 p h1 with ⟨q, hq, rfl⟩ | hmem
                  · cases hq
                    exact Or.inr (by simp)
                  · refine Or.inr ?_
                    rw [List.map_cons]
                    exact List.mem_cons_of_mem _ hmem
        · rw [dif_neg hj] at h
          have hih := (ih rest reg out hrest hpc.2).2 h
          refine ⟨hih.1, ?_⟩
          intro p hpm
          rcases hih.2 p hpm with h1 | h1
          · exact Or.inl h1
          · refine Or.inr ?_
            rw [List.map_cons]
            exact List.mem_cons_of_mem _ h1
      refine ⟨?_, hscan⟩
      intro h
      rw [interDrain] at h
      exact hscan h

/-- Sortedness of the intersection drain with a derived (linear-search) left
cursor: same statement, for any left row state. -/
theorem interDrainLin_sorted {T V1 V2 W : Type} [LinearOrder T]
    (merge : T → V1 → V2 → W) :
    ∀ n (rows : List (T × V2)) (lrows : List (T × V1)) (reg : Option (T × W))
        (out : List (T × W)),
      rows.length ≤ n →
      List.Pairwise (· ≤ ·) (rows.map Prod.fst) →
      ((interDrainLin merge reg lrows rows = some out →
        List.Pairwise (· ≤ ·) (out.map Prod.fst)
        ∧ ∀ p ∈ out, (∃ q, reg = some q ∧ p = q) ∨ p.1 ∈ rows.map Prod.fst)
      ∧ (interDrainLinScan merge reg lrows rows = some out →
        List.Pairwise (· ≤ ·) (out.map Prod.fst)
        ∧ ∀ p ∈ out, (∃ q, reg = some q ∧ p = q) ∨ p.1 ∈ rows.map Prod.fst)) := by
  intro n
  induction n with
  | zero =>
    intro rows lrows reg out hn hp
    have hrows : rows = [] := List.length_eq_zero.mp (by omega)
    subst hrows
    constructor
    · intro h
      rw [interDrainLin] at h
      cases h
      exact ⟨List.Pairwise.nil, by simp⟩
    · intro h
      rw [interDrainLinScan.eq_def] at h
      rcases reg with _ | q
      · simp at h
      · have h2 : some [q] = some out := h
        cases h2
        exact ⟨by simp, fun p hp2 => Or.inl ⟨q, rfl, by simpa using hp2⟩⟩
  | succ n ih =>
    intro rows lrows reg out hn hp
    match rows with
    | [] =>
      constructor
      · intro h
        rw [interDrainLin] at h
        cases h
        exact ⟨List.Pairwise.nil, by simp⟩
      · intro h
        rw [interDrainLinScan.eq_def] at h
        rcases reg with _ | q
        · simp at h
        · have h2 : some [q] = some out := h
          cases h2
          exact ⟨by simp, fun p hp2 => Or.inl ⟨q, rfl, by simpa using hp2⟩⟩
    | (t, v) :: rest =>
      have hrest : rest.length ≤ n := by
        rw [List.length_cons] at hn
        omega
      have hscan : interDrainLinScan merge reg lrows ((t, v) :: rest) = some out →
          List.Pairwise (· ≤ ·) (out.map Prod.fst)
          ∧ ∀ p ∈ out, (∃ q, reg = some q ∧ p = q)
            ∨ p.1 ∈ ((t, v) :: rest).map Prod.fst := by
        intro h
        rw [interDrainLinScan] at h
        rw [List.map_cons] at hp
        have hpc := List.pairwise_cons.mp hp
        rcases hadv : advanceLinear t lrows with _ | ⟨⟨tl, vl⟩, ltail⟩
        · rw [hadv] at h
          have hih := (ih rest [] reg out hrest hpc.2).2 h
          refine ⟨hih.1, ?_⟩
          intro p hpm
          rcases hih.2 p hpm with h1 | h1
          · exact Or.inl h1
          · refine Or.inr ?_
            rw [List.map_cons]
            exact List.mem_cons_of_mem _ h1
        · rw [hadv] at h
          have h2 : (interDrainLin merge (some (t, merge tl vl v))
              ((tl, vl) :: ltail) rest).map ((t, merge tl vl v) :: ·) = some out := h
          rcases hrec : interDrainLin merge (some (t, merge tl vl v))
              ((tl, vl) :: ltail) rest with _ | out1
          · rw [hrec] at h2
            cases h2
          · rw [hrec] at h2
            simp only [Option.map_some'] at h2
            cases h2
            have hih := (ih rest ((tl, vl) :: ltail) _ out1 hrest hpc.2).1 hrec
            constructor
            · rw [List.map_cons]
              refine List.pairwise_cons.mpr ⟨?_, hih.1⟩
              intro b hb
              rcases List.mem_map.mp hb with ⟨p, hpm, rfl⟩
              rcases hih.2 p hpm with ⟨q, hq, rfl⟩ | hmem
              · cases hq
                exact le_refl _
              · exact hpc.1 p.1 hmem
            · intro p hpm
              rcases List.mem_cons.mp hpm with h1 | h1
              · subst h1
                exact Or.inr (by simp)
              · rcases hih.2 p h1 with ⟨q, hq, rfl⟩ | hmem
                · cases hq
                  exact Or.inr (by simp)
                · refine Or.inr ?_
                  rw [List.map_cons]
                  exact List.mem_cons_of_mem _ hmem
      refine ⟨?_, hscan⟩
      intro h
      rw [interDrainLin] at h
      exact hscan h

/-- Every successful pipeline drain yields a tag-sorted row sequence, given
tag-sorted sources. -/
theorem evalRows_sorted {α : Type} [LinearOrder α] :
    ∀ p : Pipe α, p.sourcesSorted → ∀ rows, p.evalRows = some rows →
      List.Chain' (· ≤ ·) (rows.map Prod.fst) := by
  intro p
  induction p with
  | src df =>
    intro hs rows h
    simp only [Pipe.evalRows] at h
    have htags := srcDrainAux_tags df df.tags.length 0 rows h
    rw [List.drop_zero, List.take_length] at htags
    rw [htags]
    simpa [Pipe.sourcesSorted] using hs
  | reduce init acc p ih =>
    intro hs rows h
    simp only [Pipe.evalRows] at h
    rcases h0 : p.evalRows with _ | rows0
    · rw [h0] at h
      cases h
    · rw [h0] at h
      simp only [Option.map_some'] at h
      cases h
      have hch := ih (by simpa [Pipe.sourcesSorted] using hs) rows0 h0
      have hp := List.chain'_iff_pairwise.mp hch
      exact List.chain'_iff_pairwise.mpr
        ((reduceRows_tags_sorted init acc rows0 hp).imp (fun hab => le_of_lt hab))
  | inter merge l r ihl ihr =>
    intro hs rows h
    have hsr : r.sourcesSorted := hs.2
    cases l with
    | src df1 =>
      simp only [Pipe.evalRows] at h
      rcases hr : r.evalRows with _ | rr
      · rw [hr] at h
        cases h
      · rw [hr] at h
        simp only [Option.some_bind] at h
        have hrch := List.chain'_iff_pairwise.mp (ihr hsr rr hr)
        have := ((interDrain_sorted df1 merge rr.length rr none rows (le_refl _)
          hrch).1 h).1
        exact List.chain'_iff_pairwise.mpr this
    | reduce init acc p0 =>
      simp only [Pipe.evalRows] at h
      rcases hl : (Pipe.reduce init acc p0).evalRows with _ | lr
      · simp only [Pipe.evalRows] at hl
        rw [hl] at h
        cases h
      · simp only [Pipe.evalRows] at hl
        rw [hl] at h
        rcases hr : r.evalRows with _ | rr
        · rw [hr] at h
          cases h
        · rw [hr] at h
          simp only [Option.some_bind] at h
          have hrch := List.chain'_iff_pairwise.mp (ihr hsr rr hr)
          have := ((interDrainLin_sorted merge rr.length rr lr none rows (le_refl _)
            hrch).1 h).1
          exact List.chain'_iff_pairwise.mpr this
    | inter merge0 l0 r0 =>
      simp only [Pipe.evalRows] at h
      rcases hl : (Pipe.inter merge0 l0 r0).evalRows with _ | lr
      · rw [hl] at h
        cases h
      · rw [hl] at h
        rcases hr : r.evalRows with _ | rr
        · rw [hr] at h
          cases h
        · rw [hr] at h
          simp only [Option.some_bind] at h
          have hrch := List.chain'_iff_pairwise.mp (ihr hsr rr hr)
          have := ((interDrainLin_sorted merge rr.length rr lr none rows (le_refl _)
            hrch).1 h).1
          exact List.chain'_iff_pairwise.mpr this
    | union l0 r0 =>
      simp only [Pipe.evalRows] at h
      rcases hl : (Pipe.union l0 r0).evalRows with _ | lr
      · simp only [Pipe.evalRows] at hl
        rw [hl] at h
        cases h
      · simp only [Pipe.evalRows] at hl
        rw [hl] at h
        rcases hr : r.evalRows with _ | rr
        · rw [hr] at h
          cases h
        · rw [hr] at h
          simp only [Option.some_bind] at h
          have hrch := List.chain'_iff_pairwise.mp (ihr hsr rr hr)
          have := ((interDrainLin_sorted merge rr.length rr lr none rows (le_refl _)
            hrch).1 h).1
          exact List.chain'_iff_pairwise.mpr this
    | retag pt0 pv0 =>
      simp only [Pipe.evalRows] at h
      rcases hl : (Pipe.retag pt0 pv0).evalRows with _ | lr
      · simp only [Pipe.evalRows] at hl
        rw [hl] at h
        cases h
      · simp only [Pipe.evalRows] at hl
        rw [hl] at h
        rcases hr : r.evalRows with _ | rr
        · rw [hr] at h
          cases h
        · rw [hr] at h
          simp only [Option.some_bind] at h
          have hrch := List.chain'_iff_pairwise.mp (ihr hsr rr hr)
          have := ((interDrainLin_sorted merge rr.length rr lr none rows (le_refl _)
            hrch).1 h).1
          exact List.chain'_iff_pairwise.mpr this
  | union l r ihl ihr =>
    intro hs rows h
    simp only [Pipe.evalRows] at h
    rcases hl : l.evalRows with _ | lr
    · rw [hl] at h
      cases h
    · rw [hl] at h
      rcases hr : r.evalRows with _ | rr
      · rw [hr] at h
        cases h
      · rw [hr] at h
        simp only [Option.some_bind, Option.map_some'] at h
        cases h
        exact unionRows_sorted lr rr (ihl hs.1 lr hl) (ihr hs.2 rr hr)
  | retag pt pv ihl ihr =>
    intro hs rows h
    simp only [Pipe.evalRows] at h
    rcases hl : pt.evalRows with _ | tr
    · rw [hl] at h
      cases h
    · rw [hl] at h
      rcases hr : pv.evalRows with _ | vr
      · rw [hr] at h
        cases h
      · rw [hr] at h
        simp only [Option.some_bind] at h
        by_cases hsz : (materializeRows tr).size = (materializeRows vr).size
        · rw [if_pos hsz] at h
          cases h
          exact retagRows_tags_sorted (materializeRows tr).values (materializeRows vr).values
        · rw [if_neg hsz] at h
          cases h

/-- C7: for every pipeline of Source, Reduction, Intersection, Union and
Retag stages whose sources are tag-sorted, every materialized output
satisfies the Tagged Sequence invariant: its two arrays have equal length
and its tags are non-decreasing. -/
theorem c7_pipeline_invariant {α : Type} [LinearOrder α] (p : Pipe α)
    (hs : p.sourcesSorted) (rows : List (α × α)) (h : p.evalRows = some rows) :
    (materializeRows rows).tags.length = (materializeRows rows).values.length
    ∧ List.Chain' (· ≤ ·) (materializeRows rows).tags := by
  refine ⟨by simp [materializeRows], ?_⟩
  exact evalRows_sorted p hs rows h

/-- Witness for C7 at a three-stage pipeline (union of two sources followed
by a sum reduction). -/
theorem c7_pipeline_invariant_witness :
    (Pipe.reduce (fun _ v => v) (fun _ v a => v + a)
      (Pipe.union (Pipe.src (⟨[1, 2], [10, 20]⟩ : DataFrame Int Int))
        (Pipe.src ⟨[2], [21]⟩))).sourcesSorted
    ∧ (Pipe.reduce (fun (_ : Int) (v : Int) => v) (fun _ v a => v + a)
        (Pipe.union (Pipe.src (⟨[1, 2], [10, 20]⟩ : DataFrame Int Int))
          (Pipe.src ⟨[2], [21]⟩))).evalRows = some [(1, 10), (2, 41)]
    ∧ (materializeRows [((1 : Int), (10 : Int)), (2, 41)]).tags.length
        = (materializeRows [((1 : Int), (10 : Int)), (2, 41)]).values.length
    ∧ List.Chain' (· ≤ ·) (materializeRows [((1 : Int), (10 : Int)), (2, 41)]).tags := by
  have hs : (Pipe.reduce (fun (_ : Int) (v : Int) => v) (fun _ v a => v + a)
      (Pipe.union (Pipe.src (⟨[1, 2], [10, 20]⟩ : DataFrame Int Int))
        (Pipe.src ⟨[2], [21]⟩))).sourcesSorted := by
    simp [Pipe.sourcesSorted, List.chain'_cons]
  have hev : (Pipe.reduce (fun (_ : Int) (v : Int) => v) (fun _ v a => v + a)
      (Pipe.union (Pipe.src (⟨[1, 2], [10, 20]⟩ : DataFrame Int Int))
        (Pipe.src ⟨[2], [21]⟩))).evalRows = some [(1, 10), (2, 41)] := by
    simp +decide [Pipe.evalRows, srcDrain, srcDrainAux, optRows, unionRows, reduceRows]
  have hmain := c7_pipeline_invariant _ hs [((1 : Int), (10 : Int)), (2, 41)] hev
  exact ⟨hs, hev, hmain.1, hmain.2⟩


end DFSpec
